import Mathlib

/-!
Verification of the backport GitHub action (sources: `src/backport.ts`,
`src/utils.ts`, `src/get-files-to-skip.ts`, `src/index.ts`) against its
natural-language specification.

The TypeScript sources are shallowly embedded: pure string manipulation is
translated to computable Lean functions on `String` / `List Char`, and the
effectful orchestration (`backportOnce`, `deleteBackportBranchIfMerged`,
`backport`) is translated to pure functions that return the list of external
operations performed (an `Effect` trace) together with an `Except` result,
with the outcomes of the fallible external calls (git subprocesses and
GitHub API calls) supplied by explicit outcome records.  Logging calls
(`info`, `warning`, `error`, `group` from the actions toolkit) are not
external operations on the repository or the hosting service and are not
recorded in the trace.
-/

namespace Backport

/-! ## Character and list utilities shared by the embeddings -/

/-- The comma character, written via its code point. -/
def commaChar : Char := Char.ofNat 44

/-- The dollar character, written via its code point. -/
def dollarChar : Char := Char.ofNat 36

/-- The ampersand character, written via its code point. -/
def ampChar : Char := Char.ofNat 38

/-- The backquote character, written via its code point. -/
def backquoteChar : Char := Char.ofNat 96

/-- The single-quote character, written via its code point. -/
def singleQuoteChar : Char := Char.ofNat 39

/-- JavaScript whitespace, as trimmed by `String.prototype.trim` and matched
by the regex class `\s`: space, tab, line terminators, and the Unicode
space separators (NBSP, Ogham space, en quad through hair space, LS, PS,
narrow NBSP, medium mathematical space, ideographic space, BOM). -/
def jsSpaceChar (c : Char) : Bool :=
  c.toNat = 32 || c.toNat = 9 || c.toNat = 10 || c.toNat = 11 || c.toNat = 12 ||
  c.toNat = 13 || c.toNat = 160 || c.toNat = 0x1680 ||
  (0x2000 ≤ c.toNat && c.toNat ≤ 0x200a) ||
  c.toNat = 0x2028 || c.toNat = 0x2029 || c.toNat = 0x202f ||
  c.toNat = 0x205f || c.toNat = 0x3000 || c.toNat = 0xfeff

/-- Does `pat` occur at the start of `l`? -/
def leadsWith : List Char → List Char → Bool
  | [], _ => true
  | _ :: _, [] => false
  | a :: as, b :: bs => a = b && leadsWith as bs

/-- Split a character list at every occurrence of the character `c`,
mirroring JavaScript `String.prototype.split` with a one-character
separator: `"a,,b".split(",")` gives `["a", "", "b"]` and
`"".split(",")` gives `[""]`. -/
def splitChar (c : Char) : List Char → List (List Char)
  | [] => [[]]
  | x :: xs =>
    match splitChar c xs with
    | [] => [[]]
    | r :: rs => if x = c then [] :: r :: rs else (x :: r) :: rs

/-- Drop JavaScript whitespace from the end of a character list. -/
def dropSpaceEnd (l : List Char) : List Char :=
  (l.reverse.dropWhile jsSpaceChar).reverse

/-- Trim JavaScript whitespace from both ends of a character list,
mirroring `String.prototype.trim`. -/
def trimChars (l : List Char) : List Char :=
  dropSpaceEnd (l.dropWhile jsSpaceChar)

/-- Embedding of JavaScript `String.prototype.trim`. -/
def jsTrim (s : String) : String := String.mk (trimChars s.data)

/-- First index of `x` in a list, mirroring JavaScript
`Array.prototype.indexOf` (the absent case, where JavaScript returns `-1`,
yields the list length and is never hit by the callers below). -/
def idxOf : List String → String → Nat
  | [], _ => 0
  | y :: ys, x => if y = x then 0 else idxOf ys x + 1

/-- The indexed filter `arr.filter((item, idx) => arr.indexOf(item) === idx)`
from `utils.ts`, written with an explicit running index: `arr` is the whole
array being filtered and `i` the index of the head of the remaining list. -/
def filterIdx (arr : List String) : Nat → List String → List String
  | _, [] => []
  | i, x :: xs =>
    if idxOf arr x = i then x :: filterIdx arr (i + 1) xs
    else filterIdx arr (i + 1) xs

/-- Deduplication keeping the first occurrence of each value, exactly as
`utils.ts` writes it: keep the element at index `idx` when
`arr.indexOf(item) === idx`. -/
def dedupFirst (arr : List String) : List String := filterIdx arr 0 arr

/-! ## `utils.ts` and `get-files-to-skip.ts` -/

/-- The comma-separated items of a string, each trimmed, in order. -/
def trimmedItems (s : String) : List String :=
  (splitChar commaChar s.data).map (fun l => String.mk (trimChars l))

/-- Embedding of `parseCommaDelimitedStrings` from `src/utils.ts`:

    input?.split?.(",").map(trim).filter(truthy)
         .filter((item, idx, labels) => labels.indexOf(item) === idx) ?? []

`none` models an `undefined` input (optional chaining then yields
`undefined`, and `?? []` produces the empty array); a string value is
split on commas, trimmed, emptied of falsy (empty) strings, and
deduplicated keeping first occurrences. -/
def parseCommaDelimitedStrings (input : Option String) : List String :=
  match input with
  | none => []
  | some s => dedupFirst ((trimmedItems s).filter (fun item => item ≠ ""))

/-- Embedding of `getFilesToSkip` from `src/get-files-to-skip.ts`: explicit
`undefined`/empty-string check, then split on commas, trim each item and
drop empty items (no deduplication in this variant). -/
def getFilesToSkip (input : Option String) : List String :=
  match input with
  | none => []
  | some s =>
    if s = "" then []
    else (trimmedItems s).filter (fun v => v ≠ "")

/-- Specification-side deduplication: keep the first occurrence of each
value, in first-occurrence order, by filtering later duplicates out of the
tail. -/
def dedupFirstSpec : List String → List String
  | [] => []
  | x :: xs => x :: dedupFirstSpec (xs.filter (fun y => y ≠ x))
termination_by l => l.length
decreasing_by
  simp only [List.length_cons]
  exact Nat.lt_succ_of_le (xs.length_filter_le _)

/-- Intermediate form of first-occurrence deduplication: keep an element
when it has not been seen before, threading the set of seen values.  Used
to relate the indexed filter of `utils.ts` to `dedupFirstSpec`. -/
def keepFirsts (seen : List String) : List String → List String
  | [] => []
  | x :: xs => if x ∈ seen then keepFirsts seen xs else x :: keepFirsts (x :: seen) xs

/-! ## Label Parser (`src/backport.ts`, lines 9 and 30-61) -/

/-- Match result of the label regular expression
`/^backport ([^ ]+)(?: ([^ ]+))?$/` from `src/backport.ts` line 9, as the
pair of its capture groups.  Derivation from the regex: the string has to
start with the literal `backport ` (the regex is anchored at both ends and
has no flags); `[^ ]+` denotes a nonempty run of characters other than the
space character; the optional group requires a further literal space and a
second nonempty space-free run.  Since a space can occur neither inside
`[^ ]+` nor anywhere else except as the one optional separator, the
remainder after `backport ` matches exactly when splitting it on spaces
yields one or two components, all nonempty. -/
def labelRegExpMatch (s : String) : Option (String × Option String) :=
  if leadsWith "backport ".data s.data then
    match splitChar (Char.ofNat 32) (s.data.drop 9) with
    | [b] => if b.isEmpty then none else some (String.mk b, none)
    | [b, h] =>
      if b.isEmpty || h.isEmpty then none
      else some (String.mk b, some (String.mk h))
    | _ => none
  else none

/-- Match result of the pattern `^backport (\S+)(?: (\S+))?$` that the
specification text gives for the Label Parser.  It differs from the regex
in the source in using `\S` (any character that is not JavaScript
whitespace) instead of `[^ ]` (any character that is not the space
character): besides splitting into one or two nonempty space-separated
components, every component must also be free of tabs, line terminators
and the other Unicode whitespace characters. -/
def specLabelMatch (s : String) : Option (String × Option String) :=
  if leadsWith "backport ".data s.data then
    match splitChar (Char.ofNat 32) (s.data.drop 9) with
    | [b] =>
      if b.isEmpty || b.any jsSpaceChar then none
      else some (String.mk b, none)
    | [b, h] =>
      if b.isEmpty || h.isEmpty || b.any jsSpaceChar || h.any jsSpaceChar then none
      else some (String.mk b, some (String.mk h))
    | _ => none
  else none

/-- Embedding of `getLabelNames` from `src/backport.ts`: all label names
when the action is `closed`, just the triggering label when `labeled`,
nothing otherwise. -/
def getLabelNames (action : String) (label : String) (labels : List String) : List String :=
  if action = "closed" then labels
  else if action = "labeled" then [label]
  else []

/-- Head-branch resolution from the destructuring default in
`getBackportBaseToHead`: an explicit second capture group wins; otherwise
the default is `<branchName>-to-<base>` when `branchName` is truthy (a
nonempty string) and `backport-<pullRequestNumber>-to-<base>` when it is
the empty string. -/
def resolvedHead (branchName : String) (pullRequestNumber : Nat) (base : String) :
    Option String → String
  | some h => h
  | none =>
    if branchName = "" then "backport-" ++ toString pullRequestNumber ++ "-to-" ++ base
    else branchName ++ "-to-" ++ base

/-- Insertion into the base-to-head record, mirroring the JavaScript
assignment `baseToHead[base] = head` on a plain object: an existing entry
for the key keeps its position and gets the new value, a new key is
appended.  (JavaScript additionally fronts keys that are canonical array
indices in its iteration order; the claims below do not depend on that
corner, and branch names that are decimal numerals are not treated
specially here.) -/
def insertAssoc (m : List (String × String)) (k v : String) : List (String × String) :=
  if m.any (fun p => p.1 = k) then
    m.map (fun p => if p.1 = k then (k, v) else p)
  else m ++ [(k, v)]

/-- Embedding of `getBackportBaseToHead` from `src/backport.ts`: fold over
the relevant label names, matching each against the label regex and
inserting the resolved pair, matchless labels contributing nothing. -/
def getBackportBaseToHead (action branchName label : String) (labels : List String)
    (pullRequestNumber : Nat) : List (String × String) :=
  (getLabelNames action label labels).foldl
    (fun m labelName =>
      match labelRegExpMatch labelName with
      | none => m
      | some (base, headOpt) =>
        insertAssoc m base (resolvedHead branchName pullRequestNumber base headOpt))
    []

/-- Association-list lookup (first entry with the key wins, matching
JavaScript property access on the objects built by `insertAssoc`, whose
keys are unique). -/
def lookupA : List (String × String) → String → Option String
  | [], _ => none
  | x :: rest, key => if x.1 = key then some x.2 else lookupA rest key

/-- The resolved `(base, head)` pair a single label name contributes, or
`none` when the label does not match the regex. -/
def resolvedOf (branchName : String) (pullRequestNumber : Nat) (s : String) :
    Option (String × String) :=
  (labelRegExpMatch s).map
    (fun p => (p.1, resolvedHead branchName pullRequestNumber p.1 p.2))

/-- The value of the last pair in `ps` whose key is `key`, if any: the
specification-side description of last-wins insertion. -/
def lastWins (ps : List (String × String)) (key : String) : Option String :=
  (ps.reverse.find? (fun p => p.1 = key)).map Prod.snd

/-! ## Title templating (`src/backport.ts`, lines 299-308)

The source substitutes the placeholders with
`title.replace(new RegExp(escapeRegExp(p), "g"), value)` where `value` is a
plain string.  `escapeRegExp` makes the pattern literal, but JavaScript
still applies its replacement-pattern expansion to `value`: `$$` inserts a
dollar, `$&` the matched text, a dollar followed by a backquote the part of
the string before the match, a dollar followed by a single quote the part
after it; every other dollar (the pattern has no capture groups, so `$1`
and friends are unrecognized) stays literal. -/

/-- GetSubstitution: expand a JavaScript replacement string at one match.
`matched` is the matched text, `before` the part of the subject string
preceding the match, `after` the part following it. -/
def expandRepl (matched before after : List Char) : List Char → List Char
  | [] => []
  | [c] => [c]
  | c :: d :: ds =>
    if c = dollarChar then
      if d = dollarChar then dollarChar :: expandRepl matched before after ds
      else if d = ampChar then matched ++ expandRepl matched before after ds
      else if d = backquoteChar then before ++ expandRepl matched before after ds
      else if d = singleQuoteChar then after ++ expandRepl matched before after ds
      else c :: expandRepl matched before after (d :: ds)
    else c :: expandRepl matched before after (d :: ds)

/-- One global-replace pass over the subject string, mirroring
`String.prototype.replace` with a `g`-flagged literal pattern `p :: ps`:
scan left to right, replace each (leftmost, non-overlapping) occurrence by
the expanded replacement, continue after the occurrence without rescanning
the inserted text.  `before` accumulates the already-scanned part of the
subject string, as needed by the replacement expansion.  The `Nat`
argument is recursion fuel, consumed one unit per scanned position; every
fuel of at least the length of the subject list yields the same result
(the wrapper passes exactly the length), and the fuel keeps the recursion
structural. -/
def replaceAllFuel (p : Char) (ps rep : List Char) : Nat → List Char → List Char → List Char
  | 0, _, l => l
  | _ + 1, _, [] => []
  | fuel + 1, before, x :: xs =>
    if leadsWith (p :: ps) (x :: xs) then
      expandRepl (p :: ps) before (xs.drop ps.length) rep ++
        replaceAllFuel p ps rep fuel (before ++ p :: ps) (xs.drop ps.length)
    else x :: replaceAllFuel p ps rep fuel (before ++ [x]) xs

/-- Embedding of `title.replace(new RegExp(escapeRegExp(pat), "g"), rep)`
from `src/backport.ts`.  An empty pattern does not arise (the two
placeholders are fixed nonempty strings). -/
def jsReplaceAll (s pat rep : String) : String :=
  match pat.data with
  | [] => s
  | p :: ps => String.mk (replaceAllFuel p ps rep.data s.data.length [] s.data)

/-- The placeholder for the target base branch. -/
def placeholderBase : String := "\x7b\x7bbase\x7d\x7d"

/-- The placeholder for the original pull-request title. -/
def placeholderTitle : String := "\x7b\x7boriginalTitle\x7d\x7d"

/-- Embedding of the title computation in the orchestrator loop
(`src/backport.ts` lines 299-308): substitute the base placeholder
everywhere, then the original-title placeholder everywhere, in the
iteration order of `Object.entries({base, originalTitle})`. -/
def computeTitle (titleTemplate base originalTitle : String) : String :=
  jsReplaceAll (jsReplaceAll titleTemplate placeholderBase base) placeholderTitle originalTitle

/-- Specification-side split at every occurrence of the literal pattern
`p :: ps` (leftmost, non-overlapping), with the same fuel device as
`replaceAllFuel`. -/
def splitOnFuel (p : Char) (ps : List Char) : Nat → List Char → List (List Char)
  | 0, l => [l]
  | _ + 1, [] => [[]]
  | fuel + 1, x :: xs =>
    if leadsWith (p :: ps) (x :: xs) then [] :: splitOnFuel p ps fuel (xs.drop ps.length)
    else
      match splitOnFuel p ps fuel xs with
      | [] => [[x]]
      | r :: rs => (x :: r) :: rs

/-- Split at every occurrence of the literal pattern `p :: ps`. -/
def splitOnL (p : Char) (ps : List Char) (l : List Char) : List (List Char) :=
  splitOnFuel p ps l.length l

/-- Interleave `sep` between the parts, mirroring `Array.prototype.join`. -/
def joinWithL (sep : List Char) : List (List Char) → List Char
  | [] => []
  | [x] => x
  | x :: y :: rest => x ++ sep ++ joinWithL sep (y :: rest)

/-- Specification-side replace-all: replace every occurrence of the literal
pattern by the replacement value, with no replacement-pattern expansion,
expressed as split-at-every-occurrence and rejoin. -/
def literalReplaceAll (s pat rep : String) : String :=
  match pat.data with
  | [] => s
  | p :: ps => String.mk (joinWithL rep.data (splitOnL p ps s.data))

/-! ## Failure comment (`src/backport.ts`, lines 151-189) -/

/-- Join with a separator, mirroring `Array.prototype.join` on strings. -/
def joinWith (sep : String) : List String → String
  | [] => ""
  | [x] => x
  | x :: y :: rest => x ++ sep ++ joinWith sep (y :: rest)

/-- Embedding of `getFailedBackportCommentBody` from `src/backport.ts`:
the body of the comment posted on the original pull request when a target
fails, a function of exactly the base, the commit to backport, the error
message and the head branch. -/
def getFailedBackportCommentBody (base commitToBackport errorMessage head : String) : String :=
  let worktreePath := ".worktrees/backport-" ++ base
  joinWith "\n" [
    "The backport to `" ++ base ++ "` failed:",
    "```",
    errorMessage,
    "```",
    "To backport manually, run these commands in your terminal:",
    "```bash",
    "# Fetch latest updates from GitHub",
    "git fetch",
    "# Create a new working tree",
    "git worktree add " ++ worktreePath ++ " " ++ base,
    "# Navigate to the new working tree",
    "cd " ++ worktreePath,
    "# Create a new branch",
    "git switch --create " ++ head,
    "# Cherry-pick the merged commit of this pull request and resolve the conflicts",
    "git cherry-pick -x --mainline 1 " ++ commitToBackport,
    "# Push it to GitHub",
    "git push --set-upstream origin " ++ head,
    "# Go back to the original working tree",
    "cd ../..",
    "# Delete the working tree",
    "git worktree remove " ++ worktreePath,
    "```",
    "Then, create a pull request where the `base` branch is `" ++ base ++
      "` and the `compare`/`head` branch is `" ++ head ++ "`."
  ]

/-! ## Effect-trace model of the orchestration

Every external operation the script performs (a git subprocess or a GitHub
API call) is recorded as an `Effect`.  The outcome of each fallible call is
supplied by outcome records (`TargetOutcome` per target, `RunOutcome` per
run): `Except.ok` models normal return of the awaited promise,
`Except.error e` models a rejection with an `Error` whose message is `e`.
A function returns the effects it performed (also on the failure paths, up
to and including the failing call) together with its result. -/

/-- One external operation. -/
inductive Effect
  /-- A git subprocess `exec("git", args, cwd: repo)`. -/
  | git (repo : String) (args : List String)
  /-- The `github.repos.get` call of the merge-method warning check. -/
  | reposGet (owner repo : String)
  /-- The initial `git clone` subprocess (run in the working directory). -/
  | gitClone (url : String)
  /-- A global `git config` subprocess. -/
  | gitConfig (key value : String)
  /-- The `github.pulls.create` call opening the backport pull request. -/
  | pullsCreate (owner repo base head title body : String)
  /-- The `github.issues.addLabels` call on the new pull request. -/
  | addLabels (owner repo : String) (issue : Nat) (labels : List String)
  /-- The `github.pulls.checkIfMerged` call of the branch cleanup. -/
  | checkIfMerged (owner repo : String) (pull : Nat)
  /-- The `github.issues.createComment` call posting the failure comment. -/
  | createComment (owner repo : String) (issue : Nat) (body : String)
deriving DecidableEq, Repr

/-- Outcomes of the fallible calls made while processing one target. -/
structure TargetOutcome where
  switchBase : Except String Unit := Except.ok ()
  switchCreate : Except String Unit := Except.ok ()
  cherryPick : Except String Unit := Except.ok ()
  checkoutFile : String → Except String Unit := fun _ => Except.ok ()
  commit : Except String Unit := Except.ok ()
  abort : Except String Unit := Except.ok ()
  push : Except String Unit := Except.ok ()
  createPR : Except String Nat := Except.ok 0
  addLabels : Except String Unit := Except.ok ()
  comment : Except String Unit := Except.ok ()
  checkMerged : Except String Unit := Except.ok ()
  deleteCmd : Except String Unit := Except.ok ()

/-- Outcomes of the per-run calls, and the per-target outcomes indexed by
the position of the target in the mapping. -/
structure RunOutcome where
  reposGet : Except String Unit := Except.ok ()
  clone : Except String Unit := Except.ok ()
  configEmail : Except String Unit := Except.ok ()
  configName : Except String Unit := Except.ok ()
  target : Nat → TargetOutcome := fun _ => {}

/-- Sequencing with exception propagation: run `a`; on success feed its
value to `k` and append the effects of `k`, on failure stop (mirrors
`await` followed by the rest of an `async` function body). -/
def andThen (a : List Effect × Except String α) (k : α → List Effect × Except String β) :
    List Effect × Except String β :=
  match a with
  | (tr, Except.error e) => (tr, Except.error e)
  | (tr, Except.ok x) => (tr ++ (k x).1, (k x).2)

/-- A single external call: one effect, with the outcome supplied by the
oracle. -/
def call (eff : Effect) (r : Except String α) : List Effect × Except String α := ([eff], r)

/-- The `git checkout HEAD <file>` loop over `filesToSkip` inside the try
block of `backportOnce`. -/
def checkoutFiles (repo : String) (f : String → Except String Unit) :
    List String → List Effect × Except String Unit
  | [] => ([], Except.ok ())
  | file :: rest =>
    andThen (call (Effect.git repo ["checkout", "HEAD", file]) (f file))
      (fun _ => checkoutFiles repo f rest)

/-- The body of the try block of `backportOnce`: cherry-pick, restore the
files to skip, commit. -/
def trySection (repo sha : String) (filesToSkip : List String) (out : TargetOutcome) :
    List Effect × Except String Unit :=
  andThen (call (Effect.git repo ["cherry-pick", "-x", "-n", sha]) out.cherryPick) (fun _ =>
  andThen (checkoutFiles repo out.checkoutFile filesToSkip) (fun _ =>
  call (Effect.git repo ["commit", "--no-edit", "-s"]) out.commit))

/-- The try/catch around the cherry-pick section of `backportOnce`: on any
failure of the body, run `git cherry-pick --abort` and rethrow (when the
abort itself fails, its error is the one that propagates, as with an
exception thrown inside a catch block). -/
def tryCatchAbort (repo : String) (body : List Effect × Except String Unit)
    (abortOut : Except String Unit) : List Effect × Except String Unit :=
  match body with
  | (tr, Except.ok ()) => (tr, Except.ok ())
  | (tr, Except.error e) =>
    match abortOut with
    | Except.ok () => (tr ++ [Effect.git repo ["cherry-pick", "--abort"]], Except.error e)
    | Except.error e2 => (tr ++ [Effect.git repo ["cherry-pick", "--abort"]], Except.error e2)

/-- Embedding of `backportOnce` from `src/backport.ts`: switch to the base,
create the head branch, cherry-pick (with the abort-on-failure try/catch),
push, open the pull request, and add the configured labels when there are
any; returns the number of the created pull request. -/
def backportOnce (base bodyStr sha : String) (filesToSkip : List String) (head : String)
    (labelsToAdd : List String) (owner repo title : String) (out : TargetOutcome) :
    List Effect × Except String Nat :=
  andThen (call (Effect.git repo ["switch", base]) out.switchBase) (fun _ =>
  andThen (call (Effect.git repo ["switch", "--create", head]) out.switchCreate) (fun _ =>
  andThen (tryCatchAbort repo (trySection repo sha filesToSkip out) out.abort) (fun _ =>
  andThen (call (Effect.git repo ["push", "--set-upstream", "origin", head]) out.push) (fun _ =>
  andThen (call (Effect.pullsCreate owner repo base head title bodyStr) out.createPR) (fun n =>
  if labelsToAdd.length > 0 then
    andThen (call (Effect.addLabels owner repo n labelsToAdd) out.addLabels)
      (fun _ => ([], Except.ok n))
  else ([], Except.ok n))))))

/-- Embedding of `deleteBackportBranchIfMerged` from `src/backport.ts`: ask
whether the pull request numbered `pullRequestNumber` is merged, treating a
rejection of the call (not found / not merged) as not merged rather than as
an error; when merged, run `git push --delete --force <base> <head>` (the
arguments exactly as the source passes them). -/
def deleteBackportBranchIfMerged (base head owner repo : String) (pullRequestNumber : Nat)
    (out : TargetOutcome) : List Effect × Except String Unit :=
  match out.checkMerged with
  | Except.error _ => ([Effect.checkIfMerged owner repo pullRequestNumber], Except.ok ())
  | Except.ok () =>
    match out.deleteCmd with
    | Except.ok () =>
      ([Effect.checkIfMerged owner repo pullRequestNumber,
        Effect.git repo ["push", "--delete", "--force", base, head]], Except.ok ())
    | Except.error e =>
      ([Effect.checkIfMerged owner repo pullRequestNumber,
        Effect.git repo ["push", "--delete", "--force", base, head]], Except.error e)

/-- The webhook payload fields and configuration inputs `backport` reads. -/
structure BackportInput where
  branchName : String
  deleteBranch : Bool
  filesToSkip : List String
  labelsToAdd : List String
  action : String
  label : String
  labels : List String
  mergeCommitSha : String
  merged : Bool
  pullRequestNumber : Nat
  originalTitle : String
  repo : String
  owner : String
  titleTemplate : String
  token : String

/-- One iteration of the orchestrator loop for the target `(base, head)`:
compute the body and title, run `backportOnce` inside try/catch (the
constant the created pull-request number is bound to shadows the payload
number and is never used afterwards, as in the source); on failure post the
failure comment on the original pull request (that call can itself fail,
which propagates); afterwards, when branch deletion is enabled, run the
cleanup with the payload pull-request number. -/
def processTarget (inp : BackportInput) (base head : String) (out : TargetOutcome) :
    List Effect × Except String Unit :=
  let bodyStr := "Backport " ++ inp.mergeCommitSha ++ " from #" ++ toString inp.pullRequestNumber
  let title := computeTitle inp.titleTemplate base inp.originalTitle
  let tried :=
    match backportOnce base bodyStr inp.mergeCommitSha inp.filesToSkip head inp.labelsToAdd
        inp.owner inp.repo title out with
    | (tr, Except.ok _) => (tr, Except.ok ())
    | (tr, Except.error e) =>
      match out.comment with
      | Except.ok () =>
        (tr ++ [Effect.createComment inp.owner inp.repo inp.pullRequestNumber
          (getFailedBackportCommentBody base inp.mergeCommitSha e head)], Except.ok ())
      | Except.error e2 =>
        (tr ++ [Effect.createComment inp.owner inp.repo inp.pullRequestNumber
          (getFailedBackportCommentBody base inp.mergeCommitSha e head)], Except.error e2)
  andThen tried (fun _ =>
    if inp.deleteBranch then
      deleteBackportBranchIfMerged base head inp.owner inp.repo inp.pullRequestNumber out
    else ([], Except.ok ()))

/-- The orchestrator loop over the entries of the base-to-head mapping, in
order, with `i` the index of the first remaining target. -/
def backportLoop (inp : BackportInput) (outs : Nat → TargetOutcome) :
    Nat → List (String × String) → List Effect × Except String Unit
  | _, [] => ([], Except.ok ())
  | i, (base, head) :: rest =>
    andThen (processTarget inp base head (outs i))
      (fun _ => backportLoop inp outs (i + 1) rest)

/-- Embedding of `backport` from `src/backport.ts`: return silently when
the pull request is not merged; parse the labels into the base-to-head
mapping and return silently when it is empty; then check the repository
merge methods, clone, set the git identity, and process each target in
the iteration order of the mapping. -/
def backport (inp : BackportInput) (orc : RunOutcome) : List Effect × Except String Unit :=
  if inp.merged = false then ([], Except.ok ())
  else
    let mapping := getBackportBaseToHead inp.action inp.branchName inp.label inp.labels
      inp.pullRequestNumber
    if mapping.isEmpty then ([], Except.ok ())
    else
      andThen (call (Effect.reposGet inp.owner inp.repo) orc.reposGet) (fun _ =>
      andThen (call (Effect.gitClone ("https://x-access-token:" ++ inp.token ++ "@github.com/" ++
        inp.owner ++ "/" ++ inp.repo ++ ".git")) orc.clone) (fun _ =>
      andThen (call (Effect.gitConfig "user.email" "github-actions[bot]@users.noreply.github.com")
        orc.configEmail) (fun _ =>
      andThen (call (Effect.gitConfig "user.name" "github-actions[bot]") orc.configName) (fun _ =>
      backportLoop inp orc.target 0 mapping))))

/-! ## Helper predicates on effects and concrete scenarios used below -/

/-- Is the effect the merged-check API call? -/
def effIsCheck : Effect → Bool
  | Effect.checkIfMerged _ _ _ => true
  | _ => false

/-- Is the effect the pull-request-creation API call? -/
def effIsPullsCreate : Effect → Bool
  | Effect.pullsCreate _ _ _ _ _ _ => true
  | _ => false

/-- The concatenation of the per-target traces, in mapping order: what the
orchestrator loop emits when no error escapes a target. -/
def targetTraces (inp : BackportInput) (outs : Nat → TargetOutcome) :
    Nat → List (String × String) → List Effect
  | _, [] => []
  | i, (base, head) :: rest =>
    (processTarget inp base head (outs i)).1 ++ targetTraces inp outs (i + 1) rest

/-- A merged pull request number 42 labelled `backport 1.x`, with branch
deletion enabled. -/
def c1Inp : BackportInput := {
  branchName := "", deleteBranch := true, filesToSkip := [], labelsToAdd := [],
  action := "closed", label := "", labels := ["backport 1.x"],
  mergeCommitSha := "abc123", merged := true, pullRequestNumber := 42,
  originalTitle := "T", repo := "r", owner := "o", titleTemplate := "tt", token := "k" }

/-- All calls succeed and the created backport pull request gets number 999. -/
def c1Orc : RunOutcome := { target := fun _ => { createPR := Except.ok 999 } }

/-- The cherry-pick fails, so no backport pull request is created. -/
def c1OrcFail : RunOutcome := { target := fun _ => { cherryPick := Except.error "conflict" } }

/-- Input for the C2 witness: same payload, one target that fails. -/
def c2Inp : BackportInput := {
  branchName := "", deleteBranch := false, filesToSkip := [], labelsToAdd := [],
  action := "closed", label := "", labels := ["backport 1.x"],
  mergeCommitSha := "abc123", merged := true, pullRequestNumber := 42,
  originalTitle := "T", repo := "r", owner := "o", titleTemplate := "tt", token := "k" }

/-- A target outcome whose cherry-pick fails with a conflict. -/
def c2Out : TargetOutcome := { cherryPick := Except.error "conflict" }

/-- Two targets for the C3 and C10 witnesses. -/
def c3Inp : BackportInput := {
  branchName := "", deleteBranch := true, filesToSkip := [], labelsToAdd := [],
  action := "closed", label := "", labels := ["backport 1.x", "backport 2.x"],
  mergeCommitSha := "abc123", merged := true, pullRequestNumber := 42,
  originalTitle := "T", repo := "r", owner := "o", titleTemplate := "tt", token := "k" }

/-- The first target fails at the cherry-pick, the second succeeds. -/
def c3Outs : Nat → TargetOutcome
  | 0 => { cherryPick := Except.error "conflict" }
  | _ => { createPR := Except.ok 7 }

/-- Run outcome wrapping `c3Outs`, with all run-level calls succeeding. -/
def c3Orc : RunOutcome := { target := c3Outs }

/-- A target outcome for the C4 witness: the cherry-pick fails. -/
def c4Out : TargetOutcome := { cherryPick := Except.error "boom" }

/-! ## General lemmas about the trace combinators -/

theorem andThen_error {α β : Type} {a : List Effect × Except String α}
    {k : α → List Effect × Except String β} {e : String} (h : a.2 = Except.error e) :
    andThen a k = (a.1, Except.error e) := by
  rcases a with ⟨tr, r⟩
  cases r with
  | error e2 => cases h; rfl
  | ok x => cases h

theorem andThen_ok {α β : Type} {a : List Effect × Except String α}
    {k : α → List Effect × Except String β} {x : α} (h : a.2 = Except.ok x) :
    andThen a k = (a.1 ++ (k x).1, (k x).2) := by
  rcases a with ⟨tr, r⟩
  cases r with
  | error e2 => cases h
  | ok y => cases h; rfl

theorem mem_andThen {α β : Type} {a : List Effect × Except String α}
    {k : α → List Effect × Except String β} {p : Effect → Prop}
    (ha : ∀ e ∈ a.1, p e) (hk : ∀ x, ∀ e ∈ (k x).1, p e) :
    ∀ e ∈ (andThen a k).1, p e := by
  rcases a with ⟨tr, r⟩
  cases r with
  | error e2 => exact ha
  | ok x =>
    intro e he
    rcases List.mem_append.mp he with h | h
    · exact ha e h
    · exact hk x e h

/-- C9: if the originating pull request is not merged, or the parsed target
mapping is empty, `backport` returns silently without error and performs no
external operation (empty effect trace: no clone, no git configuration, no
API call). -/
theorem backport_precondition_skip (inp : BackportInput) (orc : RunOutcome) :
    (inp.merged = false → backport inp orc = ([], Except.ok ())) ∧
    (getBackportBaseToHead inp.action inp.branchName inp.label inp.labels
        inp.pullRequestNumber = [] →
      backport inp orc = ([], Except.ok ())) := by
  constructor
  · intro h
    simp [backport, h]
  · intro h
    by_cases hm : inp.merged = false
    · simp [backport, hm]
    · simp [backport, hm, h]

theorem backport_precondition_skip_witness :
    backport { c1Inp with merged := false } c1Orc = ([], Except.ok ()) :=
  (backport_precondition_skip { c1Inp with merged := false } c1Orc).1 rfl

/-- C1: evaluation of the code at the failing input.  The payload pull
request is number 42 and the created backport pull request is number 999
(`c1Orc`), yet the cleanup queries the merged state of number 42 — the
original pull request, not the just-created backport one — and, the check
succeeding, deletes the branch.  Moreover with `c1OrcFail` the backport
fails before any pull request is created (no `pullsCreate` effect), yet the
cleanup still runs its merged check against number 42. -/
theorem backport_cleanup_checks_original_pr :
    Effect.checkIfMerged "o" "r" 42 ∈ (backport c1Inp c1Orc).1 ∧
    Effect.checkIfMerged "o" "r" 999 ∉ (backport c1Inp c1Orc).1 ∧
    Effect.pullsCreate "o" "r" "1.x" "backport-42-to-1.x" "tt" "Backport abc123 from #42"
      ∈ (backport c1Inp c1Orc).1 ∧
    Effect.git "r" ["push", "--delete", "--force", "1.x", "backport-42-to-1.x"]
      ∈ (backport c1Inp c1Orc).1 ∧
    Effect.checkIfMerged "o" "r" 42 ∈ (backport c1Inp c1OrcFail).1 ∧
    (backport c1Inp c1OrcFail).1.all (fun e => !effIsPullsCreate e) = true := by
  decide

/-- C5, counterexample: the label `backport a<TAB>b` does not match the
pattern `^backport (\S+)(?: (\S+))?$` claimed by the specification (a tab
is JavaScript whitespace, excluded by `\S`), yet the code's regex
`^backport ([^ ]+)(?: ([^ ]+))?$` accepts it (a tab is not the space
character), so the parser does produce a mapping entry for it. -/
theorem label_pattern_counterexample :
    specLabelMatch "backport a\tb" = none ∧
    getBackportBaseToHead "closed" "" "" ["backport a\tb"] 1 =
      [("a\tb", "backport-1-to-a\tb")] := by
  decide

/-- C5, amended: the Label Parser matches each label name against the
code's pattern `^backport ([^ ]+)(?: ([^ ]+))?$` (non-space runs instead of
non-whitespace runs); a label that does not match this pattern — for
example the bare label `backport` — produces no mapping entry and is
silently ignored, and a label that does match produces exactly its entry. -/
theorem label_pattern_amended (branchName lbl : String) (pr : Nat)
    (pre post : List String) (s : String) (h : labelRegExpMatch s = none) :
    getBackportBaseToHead "closed" branchName lbl (pre ++ s :: post) pr =
      getBackportBaseToHead "closed" branchName lbl (pre ++ post) pr ∧
    labelRegExpMatch "backport" = none ∧
    (∀ t b ho, labelRegExpMatch t = some (b, ho) →
      getBackportBaseToHead "closed" branchName lbl [t] pr =
        [(b, resolvedHead branchName pr b ho)]) := by
  refine ⟨?_, by decide, ?_⟩
  · simp [getBackportBaseToHead, getLabelNames, List.foldl_append, h]
  · intro t b ho ht
    simp [getBackportBaseToHead, getLabelNames, ht, insertAssoc]

theorem label_pattern_amended_witness :
    getBackportBaseToHead "closed" "" "" (["backport 1.x"] ++ "backport" :: []) 5 =
      getBackportBaseToHead "closed" "" "" (["backport 1.x"] ++ []) 5 :=
  (label_pattern_amended "" "" 5 ["backport 1.x"] [] "backport" (by decide)).1

/-! ## Lemmas about the base-to-head mapping (for C6) -/

theorem lookupA_map_update (k v key : String) (m : List (String × String)) :
    lookupA (m.map (fun p => if p.1 = k then (k, v) else p)) key =
      if k = key then (lookupA m k).map (fun _ => v) else lookupA m key := by
  induction m with
  | nil => simp only [List.map_nil]; split_ifs <;> rfl
  | cons a rest ih =>
    simp only [List.map_cons, lookupA]
    by_cases hak : a.1 = k
    · rw [if_pos hak]
      by_cases hk : k = key
      · simp [lookupA, hk, hak, ih, hak.trans hk]
      · have h2 : ¬ a.1 = key := fun h => hk (hak ▸ h)
        simp [lookupA, hk, hak, ih, h2]
    · rw [if_neg hak]
      by_cases hk : a.1 = key
      · have h2 : ¬ k = key := fun h => hak (hk.trans h.symm)
        simp [lookupA, hk, h2]
      · simp [lookupA, hk, ih, hak]

theorem lookupA_append (m l2 : List (String × String)) (key : String) :
    lookupA (m ++ l2) key =
      match lookupA m key with
      | some v => some v
      | none => lookupA l2 key := by
  induction m with
  | nil => simp [lookupA]
  | cons a rest ih =>
    by_cases hk : a.1 = key <;> simp [lookupA, hk, ih]

theorem lookupA_none_of_not_any (m : List (String × String)) (k : String)
    (h : m.any (fun p => p.1 = k) = false) : lookupA m k = none := by
  induction m with
  | nil => rfl
  | cons a rest ih =>
    simp only [List.any_cons, Bool.or_eq_false_iff] at h
    have ha : ¬ a.1 = k := by simpa using h.1
    simp [lookupA, ha, ih h.2]

theorem lookupA_isSome_of_any (m : List (String × String)) (k : String)
    (h : m.any (fun p => p.1 = k) = true) : ∃ v, lookupA m k = some v := by
  induction m with
  | nil => simp at h
  | cons a rest ih =>
    by_cases ha : a.1 = k
    · exact ⟨a.2, by simp [lookupA, ha]⟩
    · simp only [List.any_cons, Bool.or_eq_true] at h
      rcases h with h | h
      · simp [ha] at h
      · rcases ih h with ⟨v, hv⟩
        exact ⟨v, by simp [lookupA, ha, hv]⟩

theorem lookupA_insertAssoc (m : List (String × String)) (k v key : String) :
    lookupA (insertAssoc m k v) key = if k = key then some v else lookupA m key := by
  unfold insertAssoc
  cases hc : m.any (fun p => p.1 = k) with
  | true =>
    simp only [hc, if_true, lookupA_map_update]
    by_cases hk : k = key
    · subst hk
      rcases lookupA_isSome_of_any m k hc with ⟨w, hw⟩
      simp [hw]
    · simp [hk]
  | false =>
    have hnone := lookupA_none_of_not_any m k hc
    simp only [hc, Bool.false_eq_true, if_false, lookupA_append]
    by_cases hk : k = key
    · subst hk
      simp [hnone, lookupA]
    · rcases h : lookupA m key with _ | w <;> simp [lookupA, hk, h]

theorem getBackportBaseToHead_eq_foldPairs (action branchName lbl : String)
    (labels : List String) (pr : Nat) :
    getBackportBaseToHead action branchName lbl labels pr =
      ((getLabelNames action lbl labels).filterMap (resolvedOf branchName pr)).foldl
        (fun m p => insertAssoc m p.1 p.2) [] := by
  unfold getBackportBaseToHead
  generalize getLabelNames action lbl labels = names
  generalize hm : ([] : List (String × String)) = m0
  clear hm
  induction names generalizing m0 with
  | nil => rfl
  | cons s rest ih =>
    rcases h : labelRegExpMatch s with _ | ⟨b, ho⟩ <;>
      simp [List.filterMap_cons, resolvedOf, h, ih]

theorem lookupA_foldl_insert (ps m0 : List (String × String)) (key : String) :
    lookupA (ps.foldl (fun m p => insertAssoc m p.1 p.2) m0) key =
      (lastWins ps key).elim (lookupA m0 key) some := by
  induction ps generalizing m0 with
  | nil => simp [lastWins]
  | cons p rest ih =>
    simp only [List.foldl_cons]
    rw [ih]
    unfold lastWins
    simp only [List.reverse_cons, List.find?_append]
    rcases h : rest.reverse.find? (fun q => q.1 = key) with _ | q
    · rw [lookupA_insertAssoc]
      by_cases hk : p.1 = key
      · simp [h, List.find?, hk, Option.or]
      · simp [h, List.find?, hk, Option.or]
    · simp [h, Option.or]

theorem insertAssoc_keys_nodup (m : List (String × String)) (k v : String)
    (h : (m.map Prod.fst).Nodup) : ((insertAssoc m k v).map Prod.fst).Nodup := by
  unfold insertAssoc
  cases hc : m.any (fun p => p.1 = k) with
  | true =>
    have hkeys : (m.map (fun p => if p.1 = k then (k, v) else p)).map Prod.fst =
        m.map Prod.fst := by
      simp only [List.map_map]
      apply List.map_congr_left
      intro p _
      by_cases hpk : p.1 = k <;> simp [hpk]
    simpa [hkeys] using h
  | false =>
    have hk : k ∉ m.map Prod.fst := by
      intro hmem
      rcases List.mem_map.mp hmem with ⟨p, hp, hpk⟩
      have : m.any (fun p => p.1 = k) = true :=
        List.any_eq_true.mpr ⟨p, hp, by simp [hpk]⟩
      rw [this] at hc
      cases hc
    simp only [hc, Bool.false_eq_true, if_false, List.map_append]
    rw [List.nodup_append]
    refine ⟨h, by simp, ?_⟩
    intro a ha hb
    simp only [List.map_cons, List.map_nil, List.mem_singleton] at hb
    exact hk (hb ▸ ha)

theorem foldl_insert_keys_nodup (ps : List (String × String)) :
    ∀ m0, ((m0 : List (String × String)).map Prod.fst).Nodup →
      ((ps.foldl (fun m p => insertAssoc m p.1 p.2) m0).map Prod.fst).Nodup := by
  induction ps with
  | nil => exact fun m0 h => h
  | cons p rest ih =>
    intro m0 h
    exact ih _ (insertAssoc_keys_nodup m0 p.1 p.2 h)

/-- C6: when the optional second token of a matching label is absent, the
head branch defaults to `<branchName>-to-<base>` when a branch-name prefix
is configured (nonempty) and to `backport-<prNumber>-to-<base>` otherwise;
the mapping has at most one entry per base (its keys are without
duplicates), and looking a base up yields the head contributed by the last
processed label matching that base. -/
theorem backport_head_default_and_last_wins :
    (∀ branchName lbl s b pr, labelRegExpMatch s = some (b, none) →
      getBackportBaseToHead "closed" branchName lbl [s] pr =
        [(b, if branchName = "" then "backport-" ++ toString pr ++ "-to-" ++ b
             else branchName ++ "-to-" ++ b)]) ∧
    (∀ action branchName lbl labels pr base,
      lookupA (getBackportBaseToHead action branchName lbl labels pr) base =
        lastWins ((getLabelNames action lbl labels).filterMap (resolvedOf branchName pr))
          base) ∧
    (∀ action branchName lbl labels pr,
      ((getBackportBaseToHead action branchName lbl labels pr).map Prod.fst).Nodup) := by
  refine ⟨?_, ?_, ?_⟩
  · intro branchName lbl s b pr h
    simp [getBackportBaseToHead, getLabelNames, h, insertAssoc, resolvedHead]
  · intro action branchName lbl labels pr base
    rw [getBackportBaseToHead_eq_foldPairs, lookupA_foldl_insert]
    rcases h : lastWins ((getLabelNames action lbl labels).filterMap
      (resolvedOf branchName pr)) base with _ | v <;> simp [lookupA]
  · intro action branchName lbl labels pr
    rw [getBackportBaseToHead_eq_foldPairs]
    exact foldl_insert_keys_nodup _ [] (by simp)

theorem backport_head_default_and_last_wins_witness :
    getBackportBaseToHead "closed" "" "lbl" ["backport 1.x"] 42 =
      [("1.x", if ("" : String) = "" then "backport-" ++ toString 42 ++ "-to-" ++ "1.x"
               else "" ++ "-to-" ++ "1.x")] :=
  backport_head_default_and_last_wins.1 "" "lbl" "backport 1.x" "1.x" 42 (by decide)

/-! ## Lemmas about the failure comment and effect traces (for C2) -/

theorem mem_joinWith_infix (sep : String) (ls : List String) (x : String) (h : x ∈ ls) :
    x.data <:+: (joinWith sep ls).data := by
  induction ls with
  | nil => cases h
  | cons y rest ih =>
    rcases List.mem_cons.mp h with rfl | h2
    · cases rest with
      | nil => exact List.infix_rfl
      | cons z zs =>
        show x.data <:+: (x ++ sep ++ joinWith sep (z :: zs)).data
        rw [String.data_append, String.data_append]
        exact ((List.prefix_append x.data _).trans
          (List.prefix_append (x.data ++ sep.data) _)).isInfix
    · cases rest with
      | nil => cases h2
      | cons z zs =>
        have hx := ih h2
        show x.data <:+: (y ++ sep ++ joinWith sep (z :: zs)).data
        rw [String.data_append]
        exact hx.trans (List.suffix_append _ _).isInfix

theorem mem_checkoutFiles {repo : String} {f : String → Except String Unit}
    {p : Effect → Prop} (h1 : ∀ file, p (Effect.git repo ["checkout", "HEAD", file])) :
    ∀ files, ∀ e ∈ (checkoutFiles repo f files).1, p e := by
  intro files
  induction files with
  | nil => intro e he; cases he
  | cons file rest ih =>
    apply mem_andThen
    · intro e he
      rcases List.mem_singleton.mp he with rfl
      exact h1 file
    · intro _
      exact ih

theorem mem_tryCatchAbort {repo : String} {body : List Effect × Except String Unit}
    {abortOut : Except String Unit} {p : Effect → Prop}
    (hb : ∀ e ∈ body.1, p e) (habort : p (Effect.git repo ["cherry-pick", "--abort"])) :
    ∀ e ∈ (tryCatchAbort repo body abortOut).1, p e := by
  unfold tryCatchAbort
  rcases body with ⟨tr, r⟩
  cases r with
  | ok u => cases u; exact hb
  | error e0 =>
    cases abortOut with
    | ok u =>
      cases u
      intro e he
      rcases List.mem_append.mp he with h | h
      · exact hb e h
      · rcases List.mem_singleton.mp h with rfl
        exact habort
    | error e2 =>
      intro e he
      rcases List.mem_append.mp he with h | h
      · exact hb e h
      · rcases List.mem_singleton.mp h with rfl
        exact habort

theorem mem_backportOnce {base bodyStr sha : String} {filesToSkip : List String} {head : String}
    {labelsToAdd : List String} {owner repo title : String} {out : TargetOutcome}
    {p : Effect → Prop}
    (hgit : ∀ args, p (Effect.git repo args))
    (hcreate : p (Effect.pullsCreate owner repo base head title bodyStr))
    (hlabels : ∀ n, p (Effect.addLabels owner repo n labelsToAdd)) :
    ∀ e ∈ (backportOnce base bodyStr sha filesToSkip head labelsToAdd owner repo title out).1,
      p e := by
  unfold backportOnce
  apply mem_andThen
  · intro e he
    rcases List.mem_singleton.mp he with rfl
    exact hgit _
  intro _
  apply mem_andThen
  · intro e he
    rcases List.mem_singleton.mp he with rfl
    exact hgit _
  intro _
  apply mem_andThen
  · apply mem_tryCatchAbort
    · unfold trySection
      apply mem_andThen
      · intro e he
        rcases List.mem_singleton.mp he with rfl
        exact hgit _
      intro _
      apply mem_andThen
      · exact mem_checkoutFiles (fun file => hgit _) filesToSkip
      intro _
      intro e he
      rcases List.mem_singleton.mp he with rfl
      exact hgit _
    · exact hgit _
  intro _
  apply mem_andThen
  · intro e he
    rcases List.mem_singleton.mp he with rfl
    exact hgit _
  intro _
  apply mem_andThen
  · intro e he
    rcases List.mem_singleton.mp he with rfl
    exact hcreate
  intro n
  by_cases hlen : labelsToAdd.length > 0
  · rw [if_pos hlen]
    apply mem_andThen
    · intro e he
      rcases List.mem_singleton.mp he with rfl
      exact hlabels n
    · intro _ e he
      cases he
  · rw [if_neg hlen]
    intro e he
    cases he

theorem mem_deleteBackportBranchIfMerged {base head owner repo : String}
    {pullRequestNumber : Nat} {out : TargetOutcome} {p : Effect → Prop}
    (hcheck : p (Effect.checkIfMerged owner repo pullRequestNumber))
    (hgit : p (Effect.git repo ["push", "--delete", "--force", base, head])) :
    ∀ e ∈ (deleteBackportBranchIfMerged base head owner repo pullRequestNumber out).1, p e := by
  unfold deleteBackportBranchIfMerged
  cases out.checkMerged with
  | error e0 =>
    intro e he
    rcases List.mem_singleton.mp he with rfl
    exact hcheck
  | ok u =>
    cases u
    cases out.deleteCmd with
    | ok u2 =>
      cases u2
      intro e he
      rcases List.mem_cons.mp he with rfl | he2
      · exact hcheck
      · rcases List.mem_singleton.mp he2 with rfl
        exact hgit
    | error e2 =>
      intro e he
      rcases List.mem_cons.mp he with rfl | he2
      · exact hcheck
      · rcases List.mem_singleton.mp he2 with rfl
        exact hgit

theorem mem_processTarget {inp : BackportInput} {base head : String} {out : TargetOutcome}
    {p : Effect → Prop}
    (honce : ∀ e ∈ (backportOnce base
      ("Backport " ++ inp.mergeCommitSha ++ " from #" ++ toString inp.pullRequestNumber)
      inp.mergeCommitSha inp.filesToSkip head inp.labelsToAdd inp.owner inp.repo
      (computeTitle inp.titleTemplate base inp.originalTitle) out).1, p e)
    (hcomment : ∀ msg, p (Effect.createComment inp.owner inp.repo inp.pullRequestNumber
      (getFailedBackportCommentBody base inp.mergeCommitSha msg head)))
    (hclean : ∀ e ∈ (deleteBackportBranchIfMerged base head inp.owner inp.repo
      inp.pullRequestNumber out).1, p e) :
    ∀ e ∈ (processTarget inp base head out).1, p e := by
  unfold processTarget
  simp only []
  rcases h2 : backportOnce base
      ("Backport " ++ inp.mergeCommitSha ++ " from #" ++ toString inp.pullRequestNumber)
      inp.mergeCommitSha inp.filesToSkip head inp.labelsToAdd inp.owner inp.repo
      (computeTitle inp.titleTemplate base inp.originalTitle) out with ⟨tr, r⟩
  rw [h2] at honce
  cases r with
  | ok n =>
    apply mem_andThen
    · exact honce
    · intro _
      by_cases hd : inp.deleteBranch = true
      · rw [if_pos hd]
        exact hclean
      · rw [if_neg hd]
        intro e he
        cases he
  | error msg =>
    cases hcm : out.comment with
    | ok u =>
      cases u
      apply mem_andThen
      · intro e he
        rcases List.mem_append.mp he with h | h
        · exact honce e h
        · rcases List.mem_singleton.mp h with rfl
          exact hcomment msg
      · intro _
        by_cases hd : inp.deleteBranch = true
        · rw [if_pos hd]
          exact hclean
        · rw [if_neg hd]
          intro e he
          cases he
    | error e2 =>
      apply mem_andThen
      · intro e he
        rcases List.mem_append.mp he with h | h
        · exact honce e h
        · rcases List.mem_singleton.mp h with rfl
          exact hcomment msg
      · intro _
        by_cases hd : inp.deleteBranch = true
        · rw [if_pos hd]
          exact hclean
        · rw [if_neg hd]
          intro e he
          cases he

theorem processTarget_comment_on_failure (inp : BackportInput) (base head : String)
    (out : TargetOutcome) (e : String)
    (hfail : (backportOnce base
      ("Backport " ++ inp.mergeCommitSha ++ " from #" ++ toString inp.pullRequestNumber)
      inp.mergeCommitSha inp.filesToSkip head inp.labelsToAdd inp.owner inp.repo
      (computeTitle inp.titleTemplate base inp.originalTitle) out).2 = Except.error e) :
    Effect.createComment inp.owner inp.repo inp.pullRequestNumber
      (getFailedBackportCommentBody base inp.mergeCommitSha e head) ∈
      (processTarget inp base head out).1 := by
  unfold processTarget
  simp only []
  rcases h2 : backportOnce base
      ("Backport " ++ inp.mergeCommitSha ++ " from #" ++ toString inp.pullRequestNumber)
      inp.mergeCommitSha inp.filesToSkip head inp.labelsToAdd inp.owner inp.repo
      (computeTitle inp.titleTemplate base inp.originalTitle) out with ⟨tr, r⟩
  rw [h2] at hfail
  simp only at hfail
  subst hfail
  cases hcm : out.comment with
  | ok u =>
    cases u
    rw [andThen_ok rfl]
    simp
  | error e2 =>
    rw [andThen_error rfl]
    simp

/-- C2: the failure comment is a pure function of exactly the base, the
head, the commit to backport and the error message (equal quadruples give
identical bodies); its body contains the error message and the literal
remediation command sequence (fetch, worktree add, switch --create,
cherry-pick -x --mainline 1, push, worktree remove); and on any per-target
failure the comment is posted on the original pull request: the effect is
addressed to the payload pull-request number, and every comment effect the
target processing can emit is addressed to that number (never to the new
pull request). -/
theorem failure_comment_reproducible :
    (∀ b1 c1 m1 hd1 b2 c2 m2 hd2, b1 = b2 → c1 = c2 → m1 = m2 → hd1 = hd2 →
      getFailedBackportCommentBody b1 c1 m1 hd1 = getFailedBackportCommentBody b2 c2 m2 hd2) ∧
    (∀ base sha msg head,
      msg.data <:+: (getFailedBackportCommentBody base sha msg head).data ∧
      "git fetch".data <:+: (getFailedBackportCommentBody base sha msg head).data ∧
      ("git worktree add " ++ (".worktrees/backport-" ++ base) ++ " " ++ base).data <:+:
        (getFailedBackportCommentBody base sha msg head).data ∧
      ("git switch --create " ++ head).data <:+:
        (getFailedBackportCommentBody base sha msg head).data ∧
      ("git cherry-pick -x --mainline 1 " ++ sha).data <:+:
        (getFailedBackportCommentBody base sha msg head).data ∧
      ("git push --set-upstream origin " ++ head).data <:+:
        (getFailedBackportCommentBody base sha msg head).data ∧
      ("git worktree remove " ++ (".worktrees/backport-" ++ base)).data <:+:
        (getFailedBackportCommentBody base sha msg head).data) ∧
    (∀ (inp : BackportInput) (base head : String) (out : TargetOutcome) (e : String),
      (backportOnce base
          ("Backport " ++ inp.mergeCommitSha ++ " from #" ++ toString inp.pullRequestNumber)
          inp.mergeCommitSha inp.filesToSkip head inp.labelsToAdd inp.owner inp.repo
          (computeTitle inp.titleTemplate base inp.originalTitle) out).2 = Except.error e →
        Effect.createComment inp.owner inp.repo inp.pullRequestNumber
          (getFailedBackportCommentBody base inp.mergeCommitSha e head) ∈
          (processTarget inp base head out).1) ∧
    (∀ (inp : BackportInput) (base head : String) (out : TargetOutcome),
      ∀ e2 ∈ (processTarget inp base head out).1, ∀ o r n bdy,
        e2 = Effect.createComment o r n bdy → n = inp.pullRequestNumber) := by
  refine ⟨?_, ?_, ?_, ?_⟩
  · intro b1 c1 m1 hd1 b2 c2 m2 hd2 hb hc hm hh
    rw [hb, hc, hm, hh]
  · intro base sha msg head
    unfold getFailedBackportCommentBody
    simp only []
    refine ⟨?_, ?_, ?_, ?_, ?_, ?_, ?_⟩ <;>
      · apply mem_joinWith_infix
        simp
  · intro inp base head out e hfail
    exact processTarget_comment_on_failure inp base head out e hfail
  · intro inp base head out
    apply mem_processTarget
    · apply mem_backportOnce
      · exact fun args o r n bdy heq => nomatch heq
      · exact fun o r n bdy heq => nomatch heq
      · exact fun nn o r n bdy heq => nomatch heq
    · intro msg o r n bdy heq
      cases heq
      rfl
    · apply mem_deleteBackportBranchIfMerged
      · exact fun o r n bdy heq => by cases heq
      · exact fun o r n bdy heq => nomatch heq

theorem failure_comment_reproducible_witness :
    Effect.createComment "o" "r" 42
      (getFailedBackportCommentBody "1.x" "abc123" "conflict" "backport-42-to-1.x") ∈
      (processTarget c2Inp "1.x" "backport-42-to-1.x" c2Out).1 :=
  failure_comment_reproducible.2.2.1 c2Inp "1.x" "backport-42-to-1.x" c2Out "conflict"
    (by rfl)

/-! ## Lemmas for the abort semantics (C4) -/

theorem effect_git_ne {repo repo2 : String} {args args2 : List String} (h : ¬ args = args2) :
    Effect.git repo args ≠ Effect.git repo2 args2 := by
  intro he
  injection he with _ h2
  exact h h2

theorem cons_ne_of_head_ne {a b : String} {as bs : List String} (h : ¬ a = b) :
    ¬ (a :: as) = (b :: bs) := by
  intro he
  injection he with h1 _
  exact h h1

theorem cons_ne_of_tail_ne {a b : String} {as bs : List String} (h : ¬ as = bs) :
    ¬ (a :: as) = (b :: bs) := by
  intro he
  injection he with _ h2
  exact h h2

theorem tryCatchAbort_error {repo : String} {body : List Effect × Except String Unit}
    {abortOut : Except String Unit} {e0 : String} (h : body.2 = Except.error e0) :
    tryCatchAbort repo body abortOut =
      (body.1 ++ [Effect.git repo ["cherry-pick", "--abort"]],
       Except.error (match abortOut with | Except.ok _ => e0 | Except.error e2 => e2)) := by
  rcases body with ⟨tr, r⟩
  simp only at h
  subst h
  cases abortOut with
  | ok u => cases u; rfl
  | error e2 => rfl

theorem tryCatchAbort_ok {repo : String} {body : List Effect × Except String Unit}
    {abortOut : Except String Unit} (h : body.2 = Except.ok ()) :
    tryCatchAbort repo body abortOut = (body.1, Except.ok ()) := by
  rcases body with ⟨tr, r⟩
  simp only at h
  subst h
  rfl

theorem mem_trySection {repo sha : String} {filesToSkip : List String} {out : TargetOutcome}
    {p : Effect → Prop}
    (hcp : p (Effect.git repo ["cherry-pick", "-x", "-n", sha]))
    (hco : ∀ f, p (Effect.git repo ["checkout", "HEAD", f]))
    (hcm : p (Effect.git repo ["commit", "--no-edit", "-s"])) :
    ∀ e ∈ (trySection repo sha filesToSkip out).1, p e := by
  unfold trySection
  apply mem_andThen
  · intro e he
    rcases List.mem_singleton.mp he with rfl
    exact hcp
  intro _
  apply mem_andThen
  · exact mem_checkoutFiles hco filesToSkip
  intro _ e he
  rcases List.mem_singleton.mp he with rfl
  exact hcm

/-- C4: with the branch switches succeeding, any failure inside the try
block (cherry-pick, restoring a file to skip, or commit) makes
`backportOnce` run `git cherry-pick --abort` as the final effect before an
error propagates to the caller; when the try block succeeds, no abort is
ever run, and a failure of the push, of the pull-request creation or of
the label addition propagates directly as the result error. -/
theorem backportOnce_abort_semantics (base bodyStr sha : String) (filesToSkip : List String)
    (head : String) (labelsToAdd : List String) (owner repo title : String)
    (out : TargetOutcome)
    (h1 : out.switchBase = Except.ok ()) (h2 : out.switchCreate = Except.ok ()) :
    (∀ e0, (trySection repo sha filesToSkip out).2 = Except.error e0 →
      (backportOnce base bodyStr sha filesToSkip head labelsToAdd owner repo title out).1 =
        Effect.git repo ["switch", base] :: Effect.git repo ["switch", "--create", head] ::
          ((trySection repo sha filesToSkip out).1 ++
            [Effect.git repo ["cherry-pick", "--abort"]]) ∧
      (backportOnce base bodyStr sha filesToSkip head labelsToAdd owner repo title out).2 =
        Except.error (match out.abort with | Except.ok _ => e0 | Except.error e2 => e2)) ∧
    ((trySection repo sha filesToSkip out).2 = Except.ok () →
      Effect.git repo ["cherry-pick", "--abort"] ∉
        (backportOnce base bodyStr sha filesToSkip head labelsToAdd owner repo title out).1 ∧
      (∀ e0, out.push = Except.error e0 →
        (backportOnce base bodyStr sha filesToSkip head labelsToAdd owner repo title out).2 =
          Except.error e0) ∧
      (∀ e0, out.push = Except.ok () → out.createPR = Except.error e0 →
        (backportOnce base bodyStr sha filesToSkip head labelsToAdd owner repo title out).2 =
          Except.error e0) ∧
      (∀ e0 n, out.push = Except.ok () → out.createPR = Except.ok n →
        out.addLabels = Except.error e0 → labelsToAdd.length > 0 →
        (backportOnce base bodyStr sha filesToSkip head labelsToAdd owner repo title out).2 =
          Except.error e0)) := by
  constructor
  · intro e0 hts
    unfold backportOnce
    rw [h1, h2, tryCatchAbort_error hts]
    simp [andThen, call]
  · intro hts
    refine ⟨?_, ?_, ?_, ?_⟩
    · intro habs
      have hnotabort : ∀ e ∈ (backportOnce base bodyStr sha filesToSkip head labelsToAdd
          owner repo title out).1, e ≠ Effect.git repo ["cherry-pick", "--abort"] := by
        unfold backportOnce
        rw [h1, h2, tryCatchAbort_ok hts]
        apply mem_andThen
        · intro e he
          rcases List.mem_singleton.mp he with rfl
          exact effect_git_ne (cons_ne_of_head_ne (by decide))
        intro _
        apply mem_andThen
        · intro e he
          rcases List.mem_singleton.mp he with rfl
          exact effect_git_ne (cons_ne_of_head_ne (by decide))
        intro _
        apply mem_andThen
        · refine mem_trySection ?_ ?_ ?_
          · exact effect_git_ne (cons_ne_of_tail_ne (cons_ne_of_head_ne (by decide)))
          · exact fun f => effect_git_ne (cons_ne_of_head_ne (by decide))
          · exact effect_git_ne (cons_ne_of_head_ne (by decide))
        intro _
        apply mem_andThen
        · intro e he
          rcases List.mem_singleton.mp he with rfl
          exact effect_git_ne (cons_ne_of_head_ne (by decide))
        intro _
        apply mem_andThen
        · intro e he
          rcases List.mem_singleton.mp he with rfl
          exact fun h => nomatch h
        intro n
        by_cases hlen : labelsToAdd.length > 0
        · rw [if_pos hlen]
          apply mem_andThen
          · intro e he
            rcases List.mem_singleton.mp he with rfl
            exact fun h => nomatch h
          · intro _ e he
            cases he
        · rw [if_neg hlen]
          intro e he
          cases he
      exact hnotabort _ habs rfl
    · intro e0 hpush
      unfold backportOnce
      rw [h1, h2, tryCatchAbort_ok hts, hpush]
      simp [andThen, call]
    · intro e0 hpush hpr
      unfold backportOnce
      rw [h1, h2, tryCatchAbort_ok hts, hpush, hpr]
      simp [andThen, call]
    · intro e0 n hpush hpr hlab hlen
      unfold backportOnce
      rw [h1, h2, tryCatchAbort_ok hts, hpush, hpr]
      simp only [andThen, call]
      rw [if_pos hlen, hlab]

theorem backportOnce_abort_semantics_witness :
    (backportOnce "1.x" "b" "abc" [] "h1" [] "o" "r" "t" c4Out).1 =
      Effect.git "r" ["switch", "1.x"] :: Effect.git "r" ["switch", "--create", "h1"] ::
        ((trySection "r" "abc" [] c4Out).1 ++ [Effect.git "r" ["cherry-pick", "--abort"]]) :=
  ((backportOnce_abort_semantics "1.x" "b" "abc" [] "h1" [] "o" "r" "t" c4Out rfl rfl).1
    "boom" rfl).1

/-! ## Lemmas about title templating (C8) -/

theorem expandRepl_of_no_dollar (matched before after rep : List Char)
    (h : dollarChar ∉ rep) : expandRepl matched before after rep = rep := by
  induction rep with
  | nil => rfl
  | cons c cs ih =>
    have hc : ¬ c = dollarChar := fun hh => h (by simp [hh])
    have hcs : dollarChar ∉ cs := fun hh => h (List.mem_cons_of_mem _ hh)
    cases cs with
    | nil => rfl
    | cons d ds => simp [expandRepl, hc, ih hcs]

theorem splitOnFuel_ne_nil (p : Char) (ps : List Char) (fuel : Nat) (l : List Char) :
    splitOnFuel p ps fuel l ≠ [] := by
  match fuel, l with
  | 0, l => simp [splitOnFuel]
  | _ + 1, [] => simp [splitOnFuel]
  | fuel + 1, x :: xs =>
    rcases h : splitOnFuel p ps fuel xs with _ | ⟨r, rs⟩ <;>
      by_cases hm : leadsWith (p :: ps) (x :: xs) = true <;>
        simp [splitOnFuel, hm, h]

theorem joinWithL_cons_cons (sep : List Char) (x : Char) (r : List Char)
    (rs : List (List Char)) :
    joinWithL sep ((x :: r) :: rs) = x :: joinWithL sep (r :: rs) := by
  cases rs with
  | nil => rfl
  | cons y ys => simp [joinWithL, List.cons_append]

theorem replaceAllFuel_eq_join_split (p : Char) (ps rep : List Char)
    (hrep : dollarChar ∉ rep) :
    ∀ fuel l before, l.length ≤ fuel →
      replaceAllFuel p ps rep fuel before l = joinWithL rep (splitOnFuel p ps fuel l) := by
  intro fuel
  induction fuel with
  | zero =>
    intro l before hle
    have hl : l = [] := List.eq_nil_of_length_eq_zero (Nat.le_zero.mp hle)
    subst hl
    rfl
  | succ fuel ih =>
    intro l before hle
    cases l with
    | nil => rfl
    | cons x xs =>
      by_cases hm : leadsWith (p :: ps) (x :: xs) = true
      · rcases hsp : splitOnFuel p ps fuel (xs.drop ps.length) with _ | ⟨r, rs⟩
        · exact absurd hsp (splitOnFuel_ne_nil p ps fuel (xs.drop ps.length))
        have hlen2 : (xs.drop ps.length).length ≤ fuel := by
          rw [List.length_drop]
          have : xs.length ≤ fuel := Nat.le_of_succ_le_succ (by simpa using hle)
          omega
        simp only [replaceAllFuel, splitOnFuel, hm, if_true]
        rw [expandRepl_of_no_dollar _ _ _ _ hrep, ih _ _ hlen2, hsp]
        simp [joinWithL]
      · rcases hsp : splitOnFuel p ps fuel xs with _ | ⟨r, rs⟩
        · exact absurd hsp (splitOnFuel_ne_nil p ps fuel xs)
        have hlen2 : xs.length ≤ fuel := Nat.le_of_succ_le_succ (by simpa using hle)
        simp only [replaceAllFuel, splitOnFuel, hm, Bool.false_eq_true, ite_false, hsp]
        rw [ih _ _ hlen2, hsp, joinWithL_cons_cons]

theorem jsReplaceAll_literal (s pat rep : String) (hrep : dollarChar ∉ rep.data) :
    jsReplaceAll s pat rep = literalReplaceAll s pat rep := by
  unfold jsReplaceAll literalReplaceAll
  rcases hp : pat.data with _ | ⟨p, ps⟩
  · rfl
  · dsimp only
    rw [replaceAllFuel_eq_join_split p ps rep.data hrep s.data.length s.data [] (Nat.le_refl _)]
    rfl

/-- C8, counterexample: with the base value `$$`, the JavaScript
replacement-pattern expansion of `String.prototype.replace` turns the
inserted text into a single dollar sign, so the occurrence of the
placeholder is not replaced by the base value. -/
theorem title_templating_counterexample :
    computeTitle "\x7b\x7bbase\x7d\x7d" "$$" "Fix bug" ≠ "$$" ∧
    computeTitle "\x7b\x7bbase\x7d\x7d" "$$" "Fix bug" = "$" := by
  decide

/-- C8, amended: provided the base value and the original title contain no
dollar character (values with dollars undergo JavaScript replacement-pattern
expansion instead of literal insertion), every occurrence of the base
placeholder — not just the first — is replaced by the base value and then
every occurrence of the title placeholder by the original title:
substitution equals splitting at every occurrence and rejoining with the
value.  The claim's example and a repeated-occurrence example evaluate as
claimed. -/
theorem title_templating_amended :
    (∀ titleTemplate base originalTitle : String,
      dollarChar ∉ base.data → dollarChar ∉ originalTitle.data →
      computeTitle titleTemplate base originalTitle =
        literalReplaceAll (literalReplaceAll titleTemplate placeholderBase base)
          placeholderTitle originalTitle) ∧
    computeTitle "[\x7b\x7bbase\x7d\x7d] \x7b\x7boriginalTitle\x7d\x7d" "1.x" "Fix bug" =
      "[1.x] Fix bug" ∧
    computeTitle "\x7b\x7bbase\x7d\x7d and \x7b\x7bbase\x7d\x7d: \x7b\x7boriginalTitle\x7d\x7d"
      "1.x" "Fix" = "1.x and 1.x: Fix" := by
  refine ⟨?_, by decide, by decide⟩
  intro t b o hb ho
  unfold computeTitle
  rw [jsReplaceAll_literal _ _ _ ho, jsReplaceAll_literal _ _ _ hb]

theorem title_templating_amended_witness :
    computeTitle "[\x7b\x7bbase\x7d\x7d] \x7b\x7boriginalTitle\x7d\x7d" "1.x" "Fix bug" =
      literalReplaceAll
        (literalReplaceAll "[\x7b\x7bbase\x7d\x7d] \x7b\x7boriginalTitle\x7d\x7d"
          placeholderBase "1.x")
        placeholderTitle "Fix bug" :=
  title_templating_amended.1 "[\x7b\x7bbase\x7d\x7d] \x7b\x7boriginalTitle\x7d\x7d" "1.x"
    "Fix bug" (by decide) (by decide)

/-! ## Lemmas about trimming and deduplication (C7) -/

theorem dropWhile_head_false (p : Char → Bool) (l : List Char) :
    ∀ x xs, l.dropWhile p = x :: xs → p x = false := by
  induction l with
  | nil => intro x xs h; cases h
  | cons a as ih =>
    intro x xs h
    rw [List.dropWhile_cons] at h
    by_cases ha : p a = true
    · rw [if_pos ha] at h
      exact ih x xs h
    · rw [if_neg ha] at h
      cases h
      simpa using ha

theorem dropWhile_eq_self_of_head (p : Char → Bool) (l : List Char)
    (h : ∀ x xs, l = x :: xs → p x = false) : l.dropWhile p = l := by
  cases l with
  | nil => rfl
  | cons x xs =>
    rw [List.dropWhile_cons, h x xs rfl]
    simp

theorem trimChars_head_false (l : List Char) (x : Char) (xs : List Char)
    (h : trimChars l = x :: xs) : jsSpaceChar x = false := by
  have hsuf : (l.dropWhile jsSpaceChar).reverse.dropWhile jsSpaceChar <:+
      (l.dropWhile jsSpaceChar).reverse := List.dropWhile_suffix _
  have hpre : trimChars l <+: l.dropWhile jsSpaceChar := by
    have h2 := List.reverse_prefix.mpr hsuf
    rw [List.reverse_reverse] at h2
    exact h2
  rcases hpre with ⟨t, ht⟩
  rw [h] at ht
  exact dropWhile_head_false jsSpaceChar l x (xs ++ t) ht.symm

theorem trimChars_idem (l : List Char) : trimChars (trimChars l) = trimChars l := by
  have h1 : (trimChars l).dropWhile jsSpaceChar = trimChars l :=
    dropWhile_eq_self_of_head _ _ (fun x xs h => trimChars_head_false l x xs h)
  rw [show trimChars (trimChars l) =
    dropSpaceEnd ((trimChars l).dropWhile jsSpaceChar) from rfl, h1]
  unfold dropSpaceEnd
  have h2 : (trimChars l).reverse.dropWhile jsSpaceChar = (trimChars l).reverse := by
    apply dropWhile_eq_self_of_head
    intro x xs h
    have hrev : (trimChars l).reverse =
        ((l.dropWhile jsSpaceChar).reverse).dropWhile jsSpaceChar := by
      unfold trimChars dropSpaceEnd
      rw [List.reverse_reverse]
    rw [hrev] at h
    exact dropWhile_head_false _ _ x xs h
  rw [h2, List.reverse_reverse]

theorem jsTrim_mk_trimChars (l : List Char) :
    jsTrim (String.mk (trimChars l)) = String.mk (trimChars l) := by
  unfold jsTrim
  rw [show (String.mk (trimChars l)).data = trimChars l from rfl, trimChars_idem]

theorem mem_filterIdx {x : String} (arr : List String) :
    ∀ i rest, x ∈ filterIdx arr i rest → x ∈ rest := by
  intro i rest
  induction rest generalizing i with
  | nil => intro h; cases h
  | cons y ys ih =>
    intro h
    rw [filterIdx] at h
    by_cases hc : idxOf arr y = i
    · rw [if_pos hc] at h
      rcases List.mem_cons.mp h with rfl | h2
      · exact List.mem_cons_self _ _
      · exact List.mem_cons_of_mem _ (ih _ h2)
    · rw [if_neg hc] at h
      exact List.mem_cons_of_mem _ (ih _ h)

theorem idxOf_append_cons (x : String) (r : List String) :
    ∀ t : List String, (idxOf (t ++ x :: r) x = t.length ↔ x ∉ t) := by
  intro t
  induction t with
  | nil => simp [idxOf]
  | cons y ts ih =>
    rw [List.cons_append, idxOf]
    by_cases hy : y = x
    · subst hy
      simp
    · rw [if_neg hy]
      simp only [List.length_cons, Nat.add_right_cancel_iff, List.mem_cons]
      rw [ih]
      constructor
      · intro hn hmem
        rcases hmem with h1 | h1
        · exact hy h1.symm
        · exact hn h1
      · intro hn hmem
        exact hn (Or.inr hmem)

theorem keepFirsts_congr (l : List String) :
    ∀ s1 s2, (∀ a, a ∈ s1 ↔ a ∈ s2) → keepFirsts s1 l = keepFirsts s2 l := by
  induction l with
  | nil => intro s1 s2 _; rfl
  | cons x xs ih =>
    intro s1 s2 hs
    rw [keepFirsts, keepFirsts]
    by_cases hx : x ∈ s1
    · rw [if_pos hx, if_pos ((hs x).mp hx)]
      exact ih s1 s2 hs
    · rw [if_neg hx, if_neg (fun hh => hx ((hs x).mpr hh))]
      rw [ih (x :: s1) (x :: s2) (fun a => by simp [hs a])]

theorem filterIdx_eq_keepFirsts :
    ∀ (rest pre : List String), filterIdx (pre ++ rest) pre.length rest = keepFirsts pre rest := by
  intro rest
  induction rest with
  | nil => intro pre; rfl
  | cons y ys ih =>
    intro pre
    rw [filterIdx, keepFirsts]
    have h2 := ih (pre ++ [y])
    rw [List.append_assoc] at h2
    simp only [List.singleton_append, List.length_append, List.length_cons,
      List.length_nil, Nat.zero_add] at h2
    by_cases hy : y ∈ pre
    · have hc : ¬ idxOf (pre ++ y :: ys) y = pre.length :=
        fun hh => (idxOf_append_cons y ys pre).mp hh hy
      rw [if_neg hc, if_pos hy, h2]
      exact keepFirsts_congr ys (pre ++ [y]) pre (fun a => by
        simp only [List.mem_append, List.mem_singleton]
        constructor
        · rintro (h | rfl)
          · exact h
          · exact hy
        · exact fun h => Or.inl h)
    · have hc : idxOf (pre ++ y :: ys) y = pre.length :=
        (idxOf_append_cons y ys pre).mpr hy
      rw [if_pos hc, if_neg hy, h2]
      rw [keepFirsts_congr ys (pre ++ [y]) (y :: pre) (fun a => by
        simp [List.mem_append, List.mem_singleton, List.mem_cons, or_comm])]

theorem keepFirsts_eq_dedupFirstSpec (l : List String) :
    ∀ seen, keepFirsts seen l = dedupFirstSpec (l.filter (fun y => decide (y ∉ seen))) := by
  induction l with
  | nil => intro seen; simp [keepFirsts, dedupFirstSpec]
  | cons x xs ih =>
    intro seen
    rw [keepFirsts, List.filter_cons]
    by_cases hx : x ∈ seen
    · rw [if_pos hx, if_neg (by simp [hx])]
      exact ih seen
    · rw [if_neg hx, if_pos (by simp [hx])]
      rw [dedupFirstSpec, ih (x :: seen)]
      congr 1
      rw [List.filter_filter]
      congr 1
      apply List.filter_congr
      intro a _
      by_cases hax : a = x
      · subst hax
        simp
      · by_cases has : a ∈ seen <;> simp [hax, has]

theorem dedupFirst_eq_dedupFirstSpec (arr : List String) :
    dedupFirst arr = dedupFirstSpec arr := by
  have h1 := filterIdx_eq_keepFirsts arr []
  rw [List.nil_append] at h1
  unfold dedupFirst
  rw [show (0 : Nat) = ([] : List String).length from rfl, h1,
    keepFirsts_eq_dedupFirstSpec arr []]
  congr 1
  apply List.filter_eq_self.mpr
  intro a _
  simp

theorem mem_of_mem_dedupFirstSpec {a : String} :
    ∀ (n : Nat) (l : List String), l.length ≤ n → a ∈ dedupFirstSpec l → a ∈ l := by
  intro n
  induction n with
  | zero =>
    intro l hl
    have : l = [] := List.eq_nil_of_length_eq_zero (Nat.le_zero.mp hl)
    subst this
    intro h
    rw [dedupFirstSpec] at h
    cases h
  | succ n ih =>
    intro l hl
    cases l with
    | nil =>
      intro h
      rw [dedupFirstSpec] at h
      cases h
    | cons x xs =>
      rw [dedupFirstSpec]
      intro h
      rcases List.mem_cons.mp h with rfl | h2
      · exact List.mem_cons_self _ _
      · have hlen : (xs.filter (fun y => y ≠ x)).length ≤ n :=
          Nat.le_trans (xs.length_filter_le _) (Nat.le_of_succ_le_succ (by simpa using hl))
        exact List.mem_cons_of_mem _ (List.mem_of_mem_filter (ih _ hlen h2))

theorem nodup_dedupFirstSpec :
    ∀ (n : Nat) (l : List String), l.length ≤ n → (dedupFirstSpec l).Nodup := by
  intro n
  induction n with
  | zero =>
    intro l hl
    have : l = [] := List.eq_nil_of_length_eq_zero (Nat.le_zero.mp hl)
    subst this
    simp [dedupFirstSpec]
  | succ n ih =>
    intro l hl
    cases l with
    | nil => simp [dedupFirstSpec]
    | cons x xs =>
      rw [dedupFirstSpec]
      have hlen : (xs.filter (fun y => y ≠ x)).length ≤ n :=
        Nat.le_trans (xs.length_filter_le _) (Nat.le_of_succ_le_succ (by simpa using hl))
      refine List.Nodup.cons ?_ (ih _ hlen)
      intro hmem
      have := mem_of_mem_dedupFirstSpec _ _ (Nat.le_refl _) hmem
      have := List.mem_filter.mp this
      simp at this

/-- C7: the List Parser is pure and total by construction (both variants
are total functions); undefined (`none`) or empty input yields the empty
list; every returned entry is nonempty and carries no leading or trailing
whitespace (it is a fixed point of the JavaScript trim); and the
labels-to-add variant (`parseCommaDelimitedStrings`) additionally returns
no duplicates, being exactly the first-occurrence deduplication of the
trimmed, non-empty items. -/
theorem list_parser_contract :
    parseCommaDelimitedStrings none = [] ∧
    parseCommaDelimitedStrings (some "") = [] ∧
    getFilesToSkip none = [] ∧
    getFilesToSkip (some "") = [] ∧
    (∀ input x, x ∈ parseCommaDelimitedStrings input → x ≠ "" ∧ jsTrim x = x) ∧
    (∀ input x, x ∈ getFilesToSkip input → x ≠ "" ∧ jsTrim x = x) ∧
    (∀ input, (parseCommaDelimitedStrings input).Nodup) ∧
    (∀ s, parseCommaDelimitedStrings (some s) =
      dedupFirstSpec ((trimmedItems s).filter (fun item => item ≠ ""))) := by
  have hmemP : ∀ s x, x ∈ parseCommaDelimitedStrings (some s) →
      x ∈ (trimmedItems s).filter (fun item => item ≠ "") := by
    intro s x hx
    exact mem_filterIdx _ _ _ hx
  have htrim : ∀ s x, x ∈ (trimmedItems s).filter (fun item => item ≠ "") →
      x ≠ "" ∧ jsTrim x = x := by
    intro s x hx
    have hxe : x ≠ "" := by simpa using (List.mem_filter.mp hx).2
    have hxt : x ∈ trimmedItems s := (List.mem_filter.mp hx).1
    rcases List.mem_map.mp hxt with ⟨piece, _, rfl⟩
    exact ⟨hxe, jsTrim_mk_trimChars piece⟩
  refine ⟨rfl, by decide, rfl, by decide, ?_, ?_, ?_, ?_⟩
  · intro input x hx
    rcases input with _ | s
    · cases hx
    · exact htrim s x (hmemP s x hx)
  · intro input x hx
    rcases input with _ | s
    · cases hx
    · simp only [getFilesToSkip] at hx
      by_cases hs : s = ""
      · rw [if_pos hs] at hx
        cases hx
      · rw [if_neg hs] at hx
        exact htrim s x hx
  · intro input
    rcases input with _ | s
    · exact List.nodup_nil
    · show (dedupFirst _).Nodup
      rw [dedupFirst_eq_dedupFirstSpec]
      exact nodup_dedupFirstSpec _ _ (Nat.le_refl _)
  · intro s
    show dedupFirst _ = _
    rw [dedupFirst_eq_dedupFirstSpec]

theorem list_parser_contract_witness :
    (("a" : String) ≠ "" ∧ jsTrim "a" = "a") ∧ ("b" : String) ≠ "" ∧ jsTrim "b" = "b" :=
  ⟨list_parser_contract.2.2.2.2.1 (some " a ,a,,b") "a" (by decide),
   list_parser_contract.2.2.2.2.2.1 (some " b ,c") "b" (by decide)⟩

/-! ## Lemmas about the orchestrator loop (C3, C10) -/

theorem deleteBackportBranchIfMerged_ok (base head owner repo : String)
    (pullRequestNumber : Nat) (out : TargetOutcome) (hd : out.deleteCmd = Except.ok ()) :
    (deleteBackportBranchIfMerged base head owner repo pullRequestNumber out).2 =
      Except.ok () := by
  unfold deleteBackportBranchIfMerged
  cases hm : out.checkMerged with
  | error e => rfl
  | ok u =>
    cases u
    rw [hd]

theorem processTarget_ok (inp : BackportInput) (base head : String) (out : TargetOutcome)
    (hc : out.comment = Except.ok ()) (hd : out.deleteCmd = Except.ok ()) :
    (processTarget inp base head out).2 = Except.ok () := by
  unfold processTarget
  simp only []
  rcases h2 : backportOnce base
      ("Backport " ++ inp.mergeCommitSha ++ " from #" ++ toString inp.pullRequestNumber)
      inp.mergeCommitSha inp.filesToSkip head inp.labelsToAdd inp.owner inp.repo
      (computeTitle inp.titleTemplate base inp.originalTitle) out with ⟨tr, r⟩
  cases r with
  | ok n =>
    rw [andThen_ok rfl]
    by_cases hdel : inp.deleteBranch = true
    · simp only [if_pos hdel]
      exact deleteBackportBranchIfMerged_ok base head inp.owner inp.repo
        inp.pullRequestNumber out hd
    · simp only [if_neg hdel]
  | error msg =>
    rw [hc]
    rw [andThen_ok rfl]
    by_cases hdel : inp.deleteBranch = true
    · simp only [if_pos hdel]
      exact deleteBackportBranchIfMerged_ok base head inp.owner inp.repo
        inp.pullRequestNumber out hd
    · simp only [if_neg hdel]

theorem backportLoop_eq (inp : BackportInput) (outs : Nat → TargetOutcome)
    (hc : ∀ j, (outs j).comment = Except.ok ())
    (hd : ∀ j, (outs j).deleteCmd = Except.ok ()) :
    ∀ (targets : List (String × String)) (i : Nat),
      backportLoop inp outs i targets = (targetTraces inp outs i targets, Except.ok ()) := by
  intro targets
  induction targets with
  | nil => intro i; rfl
  | cons t rest ih =>
    intro i
    rcases t with ⟨base, head⟩
    rw [backportLoop, targetTraces]
    rw [andThen_ok (processTarget_ok inp base head (outs i) (hc i) (hd i)), ih (i + 1)]

theorem processTarget_head (inp : BackportInput) (base head : String) (out : TargetOutcome) :
    ∃ rest, (processTarget inp base head out).1 =
      Effect.git inp.repo ["switch", base] :: rest := by
  have honce : ∃ rest2, (backportOnce base
      ("Backport " ++ inp.mergeCommitSha ++ " from #" ++ toString inp.pullRequestNumber)
      inp.mergeCommitSha inp.filesToSkip head inp.labelsToAdd inp.owner inp.repo
      (computeTitle inp.titleTemplate base inp.originalTitle) out).1 =
      Effect.git inp.repo ["switch", base] :: rest2 := by
    unfold backportOnce
    cases hsb : out.switchBase with
    | error e =>
      refine ⟨[], ?_⟩
      rw [andThen_error rfl]
      rfl
    | ok u =>
      cases u
      rw [andThen_ok rfl]
      exact ⟨_, rfl⟩
  unfold processTarget
  simp only []
  rcases h2 : backportOnce base
      ("Backport " ++ inp.mergeCommitSha ++ " from #" ++ toString inp.pullRequestNumber)
      inp.mergeCommitSha inp.filesToSkip head inp.labelsToAdd inp.owner inp.repo
      (computeTitle inp.titleTemplate base inp.originalTitle) out with ⟨tr, r⟩
  rw [h2] at honce
  rcases honce with ⟨rest2, hrest⟩
  simp only at hrest
  subst hrest
  cases r with
  | ok n =>
    rw [andThen_ok rfl]
    exact ⟨_, rfl⟩
  | error msg =>
    cases hcm : out.comment with
    | ok u =>
      cases u
      rw [andThen_ok rfl]
      exact ⟨_, rfl⟩
    | error e2 =>
      rw [andThen_error rfl]
      exact ⟨_, rfl⟩

/-- C3: with the failure-comment and branch-delete subprocesses succeeding,
the orchestrator loop processes the targets one at a time in the iteration
order of the mapping: its trace is exactly the concatenation of the
per-target traces, in order, and it returns without error — so a failure
of any step of `backportOnce` on one target (the per-target outcomes are
arbitrary here) never prevents the subsequent targets from being
attempted; moreover each target is genuinely attempted: its trace starts
with the switch to that target's base branch. -/
theorem targets_processed_in_order (inp : BackportInput) (outs : Nat → TargetOutcome)
    (hc : ∀ j, (outs j).comment = Except.ok ())
    (hd : ∀ j, (outs j).deleteCmd = Except.ok ()) :
    (∀ (targets : List (String × String)) (i : Nat),
      backportLoop inp outs i targets = (targetTraces inp outs i targets, Except.ok ())) ∧
    (∀ base head out, ∃ rest, (processTarget inp base head out).1 =
      Effect.git inp.repo ["switch", base] :: rest) :=
  ⟨backportLoop_eq inp outs hc hd, fun base head out => processTarget_head inp base head out⟩

theorem targets_processed_in_order_witness :
    backportLoop c3Inp c3Outs 0 [("1.x", "h1"), ("2.x", "h2")] =
      (targetTraces c3Inp c3Outs 0 [("1.x", "h1"), ("2.x", "h2")], Except.ok ()) :=
  (targets_processed_in_order c3Inp c3Outs (fun j => by cases j <;> rfl)
    (fun j => by cases j <;> rfl)).1 [("1.x", "h1"), ("2.x", "h2")] 0

theorem backport_run_eq (inp : BackportInput) (orc : RunOutcome)
    (hm : inp.merged = true)
    (h1 : orc.reposGet = Except.ok ()) (h2 : orc.clone = Except.ok ())
    (h3 : orc.configEmail = Except.ok ()) (h4 : orc.configName = Except.ok ())
    (hc : ∀ j, (orc.target j).comment = Except.ok ())
    (hd : ∀ j, (orc.target j).deleteCmd = Except.ok ())
    (hmap : getBackportBaseToHead inp.action inp.branchName inp.label inp.labels
      inp.pullRequestNumber ≠ []) :
    backport inp orc =
      (Effect.reposGet inp.owner inp.repo ::
       Effect.gitClone ("https://x-access-token:" ++ inp.token ++ "@github.com/" ++
         inp.owner ++ "/" ++ inp.repo ++ ".git") ::
       Effect.gitConfig "user.email" "github-actions[bot]@users.noreply.github.com" ::
       Effect.gitConfig "user.name" "github-actions[bot]" ::
       targetTraces inp orc.target 0 (getBackportBaseToHead inp.action inp.branchName
         inp.label inp.labels inp.pullRequestNumber), Except.ok ()) := by
  unfold backport
  rw [hm]
  rw [if_neg (by simp)]
  simp only []
  rw [if_neg (by simpa [List.isEmpty_iff] using hmap)]
  rw [h1, h2, h3, h4]
  rw [andThen_ok rfl, andThen_ok rfl, andThen_ok rfl, andThen_ok rfl]
  rw [backportLoop_eq inp orc.target hc hd]
  rfl

theorem filter_check_backportOnce (base bodyStr sha : String) (filesToSkip : List String)
    (head : String) (labelsToAdd : List String) (owner repo title : String)
    (out : TargetOutcome) :
    (backportOnce base bodyStr sha filesToSkip head labelsToAdd owner repo title
      out).1.filter effIsCheck = [] := by
  rw [List.filter_eq_nil_iff]
  have hp : ∀ e ∈ (backportOnce base bodyStr sha filesToSkip head labelsToAdd owner repo
      title out).1, effIsCheck e = false := by
    apply mem_backportOnce
    · exact fun args => rfl
    · rfl
    · exact fun n => rfl
  intro a ha
  simp [hp a ha]

theorem filter_check_cleanup (base head owner repo : String) (pullRequestNumber : Nat)
    (out : TargetOutcome) :
    ((deleteBackportBranchIfMerged base head owner repo pullRequestNumber out).1.filter
      effIsCheck).length = 1 := by
  unfold deleteBackportBranchIfMerged
  cases hm : out.checkMerged with
  | error e => rfl
  | ok u =>
    cases u
    cases hdc : out.deleteCmd with
    | ok u2 => rfl
    | error e2 => rfl

theorem processTarget_check_count (inp : BackportInput) (base head : String)
    (out : TargetOutcome) (hdel : inp.deleteBranch = true)
    (hcomment : out.comment = Except.ok ()) :
    ((processTarget inp base head out).1.filter effIsCheck).length = 1 := by
  have honce := filter_check_backportOnce base
    ("Backport " ++ inp.mergeCommitSha ++ " from #" ++ toString inp.pullRequestNumber)
    inp.mergeCommitSha inp.filesToSkip head inp.labelsToAdd inp.owner inp.repo
    (computeTitle inp.titleTemplate base inp.originalTitle) out
  have hclean := filter_check_cleanup base head inp.owner inp.repo inp.pullRequestNumber out
  unfold processTarget
  simp only []
  rcases h2 : backportOnce base
      ("Backport " ++ inp.mergeCommitSha ++ " from #" ++ toString inp.pullRequestNumber)
      inp.mergeCommitSha inp.filesToSkip head inp.labelsToAdd inp.owner inp.repo
      (computeTitle inp.titleTemplate base inp.originalTitle) out with ⟨tr, r⟩
  rw [h2] at honce
  simp only at honce
  cases r with
  | ok n =>
    rw [andThen_ok rfl]
    simp only [if_pos hdel]
    rw [List.filter_append, honce, List.nil_append]
    exact hclean
  | error msg =>
    rw [hcomment]
    rw [andThen_ok rfl]
    simp only [if_pos hdel]
    rw [List.filter_append, List.filter_append, honce, List.nil_append]
    rw [show [Effect.createComment inp.owner inp.repo inp.pullRequestNumber
      (getFailedBackportCommentBody base inp.mergeCommitSha msg head)].filter effIsCheck
      = [] from rfl, List.nil_append]
    exact hclean

theorem targetTraces_check_count (inp : BackportInput) (outs : Nat → TargetOutcome)
    (hdel : inp.deleteBranch = true) (hc : ∀ j, (outs j).comment = Except.ok ()) :
    ∀ (targets : List (String × String)) (i : Nat),
      ((targetTraces inp outs i targets).filter effIsCheck).length = targets.length := by
  intro targets
  induction targets with
  | nil => intro i; rfl
  | cons t rest ih =>
    intro i
    rcases t with ⟨base, head⟩
    rw [targetTraces, List.filter_append, List.length_append,
      processTarget_check_count inp base head (outs i) hdel (hc i), ih (i + 1),
      List.length_cons]
    omega

theorem mem_targetTraces {inp : BackportInput} {outs : Nat → TargetOutcome}
    {p : Effect → Prop}
    (h : ∀ i base head, ∀ e ∈ (processTarget inp base head (outs i)).1, p e) :
    ∀ (targets : List (String × String)) (i : Nat),
      ∀ e ∈ targetTraces inp outs i targets, p e := by
  intro targets
  induction targets with
  | nil => intro i e he; cases he
  | cons t rest ih =>
    intro i e he
    rcases t with ⟨base, head⟩
    rw [targetTraces] at he
    rcases List.mem_append.mp he with h2 | h2
    · exact h i base head e h2
    · exact ih (i + 1) e h2

/-- C10: when branch deletion is enabled (and the run-level calls, the
failure comments and the delete subprocesses succeed), the cleanup runs for
every target after its try/catch block — the run emits exactly one
merged-check API call per mapping entry, for arbitrary per-target outcomes,
including targets whose backport failed and created no pull request — and
every merged-check in the whole run queries the original pull request's
number (the number returned by `backportOnce` is bound to a shadowing local
constant and never used afterwards). -/
theorem cleanup_runs_for_every_target (inp : BackportInput) (orc : RunOutcome)
    (hdel : inp.deleteBranch = true) (hm : inp.merged = true)
    (h1 : orc.reposGet = Except.ok ()) (h2 : orc.clone = Except.ok ())
    (h3 : orc.configEmail = Except.ok ()) (h4 : orc.configName = Except.ok ())
    (hc : ∀ j, (orc.target j).comment = Except.ok ())
    (hd : ∀ j, (orc.target j).deleteCmd = Except.ok ())
    (hmap : getBackportBaseToHead inp.action inp.branchName inp.label inp.labels
      inp.pullRequestNumber ≠ []) :
    ((backport inp orc).1.filter effIsCheck).length =
      (getBackportBaseToHead inp.action inp.branchName inp.label inp.labels
        inp.pullRequestNumber).length ∧
    (∀ e ∈ (backport inp orc).1, ∀ o r n, e = Effect.checkIfMerged o r n →
      n = inp.pullRequestNumber) := by
  have heq := backport_run_eq inp orc hm h1 h2 h3 h4 hc hd hmap
  constructor
  · rw [heq]
    show ((Effect.reposGet inp.owner inp.repo ::
      Effect.gitClone _ :: Effect.gitConfig _ _ :: Effect.gitConfig _ _ ::
      targetTraces inp orc.target 0 _).filter effIsCheck).length = _
    rw [List.filter_cons_of_neg (by simp [effIsCheck]),
      List.filter_cons_of_neg (by simp [effIsCheck]),
      List.filter_cons_of_neg (by simp [effIsCheck]),
      List.filter_cons_of_neg (by simp [effIsCheck])]
    exact targetTraces_check_count inp orc.target hdel hc _ 0
  · rw [heq]
    have hper : ∀ i base head, ∀ e ∈ (processTarget inp base head (orc.target i)).1,
        ∀ o r n, e = Effect.checkIfMerged o r n → n = inp.pullRequestNumber := by
      intro i base head
      apply mem_processTarget
      · apply mem_backportOnce
        · exact fun args o r n hh => nomatch hh
        · exact fun o r n hh => nomatch hh
        · exact fun m o r n hh => nomatch hh
      · intro msg o r n hh
        cases hh
      · apply mem_deleteBackportBranchIfMerged
        · intro o r n hh
          cases hh
          rfl
        · exact fun o r n hh => nomatch hh
    intro e he o r n hh
    simp only [List.mem_cons] at he
    rcases he with rfl | he
    · exact nomatch hh
    rcases he with rfl | he
    · exact nomatch hh
    rcases he with rfl | he
    · exact nomatch hh
    rcases he with rfl | he
    · exact nomatch hh
    exact mem_targetTraces hper _ 0 e he o r n hh

theorem cleanup_runs_for_every_target_witness :
    ((backport c3Inp c3Orc).1.filter effIsCheck).length =
      (getBackportBaseToHead c3Inp.action c3Inp.branchName c3Inp.label c3Inp.labels
        c3Inp.pullRequestNumber).length :=
  (cleanup_runs_for_every_target c3Inp c3Orc rfl rfl rfl rfl rfl rfl
    (fun j => by cases j <;> rfl) (fun j => by cases j <;> rfl) (by decide)).1

end Backport
